import Mathlib

/-!
Verification of the bounded blocking queue (`ThreadSafeCircularBuffer`) in
`src/unnamed/part_000` of the `thread-safe-ds` repository.

The C++ class guards a fixed array `int buffer[BUFFER_SIZE]` (with
`#define BUFFER_SIZE 5`), indices `in`, `out`, a counter `count`, and a
`closed` flag behind a single mutex.  Each public operation runs as one
critical section, so the concurrent object is faithfully modelled by a
sequential state machine: every call is a function from the state before
its critical section to the state after.  A call whose condition-variable
wait predicate is false suspends without mutating the state; we model a
suspended call by `none` (the call does not complete in that state).
-/

namespace ThreadSafeDS

/-- The macro constant from the source: `#define BUFFER_SIZE 5`. -/
def BUFFER_SIZE : Nat := 5

/-- Reduce a natural index into the ring range, as `% BUFFER_SIZE` does in
the C++ index updates `in = (in + 1) % BUFFER_SIZE` and
`out = (out + 1) % BUFFER_SIZE`. -/
def finIdx (n : Nat) : Fin BUFFER_SIZE :=
  ⟨n % BUFFER_SIZE, Nat.mod_lt n (by decide)⟩

/-- The mutable state of `ThreadSafeCircularBuffer`: the array
`int buffer[BUFFER_SIZE]`, the indices `in` and `out` (always kept in
`[0, BUFFER_SIZE)` by the `% BUFFER_SIZE` updates, hence `Fin`), the
counter `int count` (a C `int`, so modelled as an integer), and the flag
`bool closed`.  The mutex and the two condition variables carry no data. -/
structure Buffer where
  buffer : Fin BUFFER_SIZE → Int
  inIdx : Fin BUFFER_SIZE
  outIdx : Fin BUFFER_SIZE
  count : Int
  closed : Bool
deriving DecidableEq

/-- The default-constructed buffer: `in = 0, out = 0, count = 0,
closed = false`.  The C++ member array is uninitialised, so the initial
array contents are an arbitrary parameter. -/
def mkBuffer (init : Fin BUFFER_SIZE → Int) : Buffer :=
  { buffer := init, inIdx := ⟨0, by decide⟩, outIdx := ⟨0, by decide⟩,
    count := 0, closed := false }

/-- The capacity of the queue.  In the source it is not a field or a
constructor argument: it is the compile-time constant `BUFFER_SIZE`. -/
def Buffer.capacity (_ : Buffer) : Nat := BUFFER_SIZE

/-- The member `bool push(int value)`.  The wait predicate is
`count < BUFFER_SIZE || closed`; while it is false the caller suspends
(`none`).  Once it holds: if `closed`, return `false` with the state
untouched; otherwise store `value` at `in`, advance `in` modulo
`BUFFER_SIZE`, increment `count`, and return `true`. -/
def Buffer.push (s : Buffer) (value : Int) : Option (Buffer × Bool) :=
  if s.count < (BUFFER_SIZE : Int) ∨ s.closed then
    if s.closed then some (s, false)
    else some ({ s with
        buffer := Function.update s.buffer s.inIdx value,
        inIdx := finIdx (s.inIdx.val + 1),
        count := s.count + 1 }, true)
  else none

/-- The member `bool pop(int& value)`.  The wait predicate is `count > 0 || closed`;
while it is false the caller suspends (`none`).  Once it holds: if
`count == 0` (so closed and empty), return `false` leaving the reference
argument `value` untouched; otherwise read `buffer[out]` into `value`,
advance `out` modulo `BUFFER_SIZE`, decrement `count`, and return `true`.
The result triple is (state after, value reference after, return value). -/
def Buffer.pop (s : Buffer) (value : Int) : Option (Buffer × Int × Bool) :=
  if 0 < s.count ∨ s.closed then
    if s.count = 0 then some (s, value, false)
    else some ({ s with
        outIdx := finIdx (s.outIdx.val + 1),
        count := s.count - 1 }, s.buffer s.outIdx, true)
  else none

/-- The member `void close()`: sets `closed = true` under the lock, then notifies all
waiters on both condition variables (the notifications carry no state). -/
def Buffer.close (s : Buffer) : Buffer :=
  { s with closed := true }

/-- The member `bool empty() const`: `count == 0` under the lock. -/
def Buffer.empty (s : Buffer) : Bool :=
  s.count = 0

/-- The member `bool full() const`: `count == BUFFER_SIZE` under the lock. -/
def Buffer.full (s : Buffer) : Bool :=
  s.count = (BUFFER_SIZE : Int)

/-- The member `size_t size() const`: returns `count` (cast to `size_t`; on every
reachable state `count` is non-negative, so the cast is value-preserving). -/
def Buffer.size (s : Buffer) : Int :=
  s.count

/-- One invocation of a public operation of the class.  `push` and `pop`
carry their argument (`pop`'s is the incoming value of the caller's
reference variable). -/
inductive Op where
  | push (value : Int)
  | pop (value : Int)
  | close
  | size
  | empty
  | full

/-- The state after one operation.  A call that suspends (`push`/`pop`
returning `none`) has not yet run its mutating section, so the state is
unchanged; `size`, `empty`, `full` are read-only. -/
def applyOp (s : Buffer) : Op → Buffer
  | .push v =>
      match s.push v with
      | some (s', _) => s'
      | none => s
  | .pop v =>
      match s.pop v with
      | some (s', _, _) => s'
      | none => s
  | .close => s.close
  | .size => s
  | .empty => s
  | .full => s

/-- The state after a sequence of operations. -/
def run (s : Buffer) (ops : List Op) : Buffer :=
  ops.foldl applyOp s

/-- Run a sequence of operations counting the successful pushes
(`push` returned `true`) and the successful value-returning pops
(`pop` returned `true`).  Result: (final state, pushes, pops). -/
def runCounting (s : Buffer) : List Op → Buffer × Nat × Nat
  | [] => (s, 0, 0)
  | op :: ops =>
      match op with
      | .push v =>
          match s.push v with
          | some (s', true) =>
              let r := runCounting s' ops
              (r.1, r.2.1 + 1, r.2.2)
          | some (s', false) => runCounting s' ops
          | none => runCounting s ops
      | .pop v =>
          match s.pop v with
          | some (s', _, true) =>
              let r := runCounting s' ops
              (r.1, r.2.1, r.2.2 + 1)
          | some (s', _, false) => runCounting s' ops
          | none => runCounting s ops
      | _ => runCounting (applyOp s op) ops

/-- The abstract FIFO content of the ring: the `count` values starting at
`out`, in dequeue order. -/
def Buffer.contents (s : Buffer) : List Int :=
  (List.range s.count.toNat).map fun k => s.buffer (finIdx (s.outIdx.val + k))

/-- The representation invariant of the ring buffer: the counter is within
bounds and the write index is `count` slots past the read index. -/
def Buffer.Inv (s : Buffer) : Prop :=
  0 ≤ s.count ∧ s.count ≤ (BUFFER_SIZE : Int) ∧
    s.inIdx = finIdx (s.outIdx.val + s.count.toNat)

/-- Push a whole list, requiring every push to complete and be accepted. -/
def pushList (s : Buffer) : List Int → Option Buffer
  | [] => some s
  | v :: rest =>
      match s.push v with
      | some (s', true) => pushList s' rest
      | _ => none

/-- Pop `n` times, requiring every pop to complete with a value; returns
the popped values in order together with the final state. -/
def popList (s : Buffer) : Nat → Option (List Int × Buffer)
  | 0 => some ([], s)
  | n + 1 =>
      match s.pop 0 with
      | some (s', v, true) =>
          match popList s' n with
          | some (vs, s'') => some (v :: vs, s'')
          | none => none
      | _ => none

/-- A concrete closed state holding one item, for exercising theorems. -/
def witOne : Buffer :=
  { buffer := fun _ => 7, inIdx := finIdx 1, outIdx := finIdx 0,
    count := 1, closed := true }

/-- A concrete closed empty queue, for exercising theorems. -/
def witClosedEmpty : Buffer :=
  (mkBuffer fun _ => 0).close

/-- Inversion: a push that completed returning `true` took the insert
branch: the queue was open and not full, and the state was updated by
writing at `in`, advancing `in`, and incrementing `count`. -/
theorem push_true_inv {s s' : Buffer} {v : Int} (h : s.push v = some (s', true)) :
    s.closed = false ∧ s.count < (BUFFER_SIZE : Int) ∧
      s' = { s with buffer := Function.update s.buffer s.inIdx v,
                    inIdx := finIdx (s.inIdx.val + 1),
                    count := s.count + 1 } := by
  unfold Buffer.push at h
  split at h
  · rename_i hcond
    split at h
    · simp at h
    · rename_i hcl
      simp only [Option.some.injEq, Prod.mk.injEq] at h
      exact ⟨by simpa using hcl, hcond.resolve_right (by simpa using hcl), h.1.symm⟩
  · simp at h

/-- Inversion: a push that completed returning `false` found the queue
closed and left the state untouched. -/
theorem push_false_inv {s s' : Buffer} {v : Int} (h : s.push v = some (s', false)) :
    s.closed = true ∧ s' = s := by
  unfold Buffer.push at h
  split at h
  · split at h
    · rename_i hcl
      simp only [Option.some.injEq, Prod.mk.injEq] at h
      exact ⟨hcl, h.1.symm⟩
    · simp at h
  · simp at h

/-- Inversion: a pop that completed returning `true` took the read branch:
some item was counted, the head slot was read into the reference, `out`
advanced, and `count` decremented. -/
theorem pop_true_inv {s s' : Buffer} {w v : Int} (h : s.pop w = some (s', v, true)) :
    ¬ s.count = 0 ∧ (0 < s.count ∨ s.closed = true) ∧ v = s.buffer s.outIdx ∧
      s' = { s with outIdx := finIdx (s.outIdx.val + 1),
                    count := s.count - 1 } := by
  unfold Buffer.pop at h
  split at h
  · rename_i hw
    split at h
    · simp at h
    · rename_i h0
      simp only [Option.some.injEq, Prod.mk.injEq] at h
      exact ⟨h0, hw, h.2.1.symm, h.1.symm⟩
  · simp at h

/-- Inversion: a pop that completed returning `false` found the queue
closed and empty, and changed neither the state nor the reference. -/
theorem pop_false_inv {s s' : Buffer} {w v : Int} (h : s.pop w = some (s', v, false)) :
    s.closed = true ∧ s.count = 0 ∧ s' = s ∧ v = w := by
  unfold Buffer.pop at h
  split at h
  · rename_i hw
    split at h
    · rename_i h0
      simp only [Option.some.injEq, Prod.mk.injEq] at h
      exact ⟨hw.resolve_left (by omega), h0, h.1.symm, h.2.1.symm⟩
    · simp at h
  · simp at h

/-- C3: whenever the queue is closed, `push` completes immediately,
returns `false` (Rejected), and the returned state is the argument state
itself: `count`, the stored items, both indices, and the flag are all
unchanged, even when `count` is below capacity. -/
theorem closed_push_rejects_unchanged (s : Buffer) (v : Int) (h : s.closed = true) :
    s.push v = some (s, false) := by
  simp [Buffer.push, h]

/-- Witness for C3 at a concrete closed, non-full state. -/
theorem closed_push_rejects_unchanged_wit :
    witOne.closed = true ∧ witOne.push 42 = some (witOne, false) :=
  ⟨rfl, closed_push_rejects_unchanged witOne 42 rfl⟩

/-- C6: `close` changes only the `closed` flag: the array, both indices,
the count, and hence the abstract contents are untouched, and a second
`close` (in particular, closing an already-closed queue) changes nothing. -/
theorem close_frame (s : Buffer) :
    s.close.buffer = s.buffer ∧ s.close.inIdx = s.inIdx ∧
      s.close.outIdx = s.outIdx ∧ s.close.count = s.count ∧
      s.close.contents = s.contents ∧ s.close.close = s.close ∧
      (s.closed = true → s.close = s) := by
  refine ⟨rfl, rfl, rfl, rfl, rfl, rfl, ?_⟩
  intro h
  cases s with
  | mk buffer inIdx outIdx count closed =>
      cases h
      rfl

/-- Witness for C6 at a concrete already-closed state. -/
theorem close_frame_wit :
    witOne.closed = true ∧ witOne.close = witOne :=
  ⟨rfl, (close_frame witOne).2.2.2.2.2.2 rfl⟩

/-- C10: whenever `pop` completes returning `false` (end-of-stream), the
reference argument comes back with its original value — `pop` writes the
out-parameter only on success — and the state is unchanged. -/
theorem pop_eos_preserves_ref {s s' : Buffer} {w v : Int}
    (h : s.pop w = some (s', v, false)) :
    v = w ∧ s' = s :=
  ⟨(pop_false_inv h).2.2.2, (pop_false_inv h).2.2.1⟩

/-- Witness for C10 at a concrete closed empty queue. -/
theorem pop_eos_preserves_ref_wit :
    witClosedEmpty.pop 5 = some (witClosedEmpty, 5, false) ∧
      ((5 : Int) = 5 ∧ witClosedEmpty = witClosedEmpty) :=
  ⟨by decide, pop_eos_preserves_ref (by decide)⟩

/-- The integer cast of the capacity constant. -/
theorem bufferSize_int : (BUFFER_SIZE : Int) = 5 := by decide

/-- The head of the abstract contents is the slot at `out`. -/
theorem contents_head (s : Buffer) (hpos : 0 < s.count) :
    s.contents.head? = some (s.buffer s.outIdx) := by
  unfold Buffer.contents
  have h1 : s.count.toNat = (s.count.toNat - 1) + 1 := by omega
  rw [h1, List.range_succ_eq_map, List.map_cons, List.head?_cons]
  have h2 : finIdx (s.outIdx.val + 0) = s.outIdx :=
    Fin.ext (by simp [finIdx, Nat.mod_eq_of_lt s.outIdx.isLt])
  rw [h2]

/-- After the read branch of `pop`, the abstract contents lose exactly
their head. -/
theorem pop_state_contents (s : Buffer) (hpos : 0 < s.count) :
    ({ s with outIdx := finIdx (s.outIdx.val + 1),
              count := s.count - 1 } : Buffer).contents = s.contents.tail := by
  unfold Buffer.contents
  have h1 : s.count.toNat = (s.count.toNat - 1) + 1 := by omega
  have h2 : (s.count - 1).toNat = s.count.toNat - 1 := by omega
  simp only [h2]
  conv_rhs => rw [h1, List.range_succ_eq_map, List.map_cons, List.tail_cons,
    List.map_map]
  apply List.map_congr_left
  intro k hk
  simp only [Function.comp_apply]
  congr 1
  apply Fin.ext
  simp only [finIdx, BUFFER_SIZE]
  omega

/-- The read branch of `pop`: it completes, returns the head of the
abstract contents through the reference, and leaves the tail. -/
theorem pop_reads_head (s : Buffer) (w : Int) (hpos : 0 < s.count) :
    ∃ s', s.pop w = some (s', s.buffer s.outIdx, true) ∧
      s.contents = s.buffer s.outIdx :: s'.contents ∧
      s'.count = s.count - 1 ∧ s'.closed = s.closed ∧
      s'.buffer = s.buffer ∧ s'.contents = s.contents.tail := by
  refine ⟨{ s with outIdx := finIdx (s.outIdx.val + 1), count := s.count - 1 },
    ?_, ?_, rfl, rfl, rfl, pop_state_contents s hpos⟩
  · unfold Buffer.pop
    rw [if_pos (Or.inl hpos), if_neg (by omega)]
  · rw [pop_state_contents s hpos]
    have hh := contents_head s hpos
    cases hcont : s.contents with
    | nil => rw [hcont] at hh; simp at hh
    | cons a t =>
        rw [hcont] at hh
        simp only [List.head?_cons, Option.some.injEq] at hh
        simp [hh]

/-- C2: whenever `count` is positive, `pop` completes with the head value
and decrements `count`, whether or not the queue is closed; `pop` returns
end-of-stream exactly when the queue is closed with `count = 0`, and in
that case it completes immediately without suspending. -/
theorem pop_drain_precedence (s : Buffer) (w : Int) :
    (0 < s.count →
      ∃ s', s.pop w = some (s', s.buffer s.outIdx, true) ∧
        s.contents.head? = some (s.buffer s.outIdx) ∧
        s'.count = s.count - 1 ∧ s'.contents = s.contents.tail) ∧
    ((∃ s' v, s.pop w = some (s', v, false)) ↔ s.closed = true ∧ s.count = 0) ∧
    (s.closed = true → s.count = 0 → s.pop w = some (s, w, false)) := by
  refine ⟨?_, ⟨?_, ?_⟩, ?_⟩
  · intro hpos
    obtain ⟨s', h1, h2, h3, h4, h5, h6⟩ := pop_reads_head s w hpos
    exact ⟨s', h1, contents_head s hpos, h3, h6⟩
  · rintro ⟨s', v, h⟩
    exact ⟨(pop_false_inv h).1, (pop_false_inv h).2.1⟩
  · rintro ⟨hcl, h0⟩
    refine ⟨s, w, ?_⟩
    unfold Buffer.pop
    rw [if_pos (Or.inr hcl), if_pos h0]
  · intro hcl h0
    unfold Buffer.pop
    rw [if_pos (Or.inr hcl), if_pos h0]

/-- Witness for C2 at a concrete closed state holding one item: the item
is still delivered before end-of-stream. -/
theorem pop_drain_precedence_wit :
    0 < witOne.count ∧
      ∃ s', witOne.pop 5 = some (s', witOne.buffer witOne.outIdx, true) ∧
        witOne.contents.head? = some (witOne.buffer witOne.outIdx) ∧
        s'.count = witOne.count - 1 ∧ s'.contents = witOne.contents.tail :=
  ⟨by decide, (pop_drain_precedence witOne 5).1 (by decide)⟩

/-- The state after a push call that completed. -/
theorem applyOp_push_some {s s' : Buffer} {v : Int} {b : Bool}
    (hp : s.push v = some (s', b)) : applyOp s (Op.push v) = s' := by
  simp only [applyOp, hp]

/-- The state after a push call that suspended. -/
theorem applyOp_push_none {s : Buffer} {v : Int}
    (hp : s.push v = none) : applyOp s (Op.push v) = s := by
  simp only [applyOp, hp]

/-- The state after a pop call that completed. -/
theorem applyOp_pop_some {s s' : Buffer} {w v : Int} {b : Bool}
    (hp : s.pop w = some (s', v, b)) : applyOp s (Op.pop w) = s' := by
  simp only [applyOp, hp]

/-- The state after a pop call that suspended. -/
theorem applyOp_pop_none {s : Buffer} {w : Int}
    (hp : s.pop w = none) : applyOp s (Op.pop w) = s := by
  simp only [applyOp, hp]

/-- Counter and flag effect of an accepted push. -/
theorem push_true_count {s s' : Buffer} {v : Int} (h : s.push v = some (s', true)) :
    s'.count = s.count + 1 ∧ s.count < (BUFFER_SIZE : Int) ∧ s'.closed = s.closed := by
  obtain ⟨hcl, hlt, hs⟩ := push_true_inv h
  subst hs
  exact ⟨rfl, hlt, rfl⟩

/-- Counter and flag effect of a value-returning pop. -/
theorem pop_true_count {s s' : Buffer} {w v : Int} (h : s.pop w = some (s', v, true)) :
    s'.count = s.count - 1 ∧ ¬ s.count = 0 ∧ s'.closed = s.closed := by
  obtain ⟨h0, hw, hv, hs⟩ := pop_true_inv h
  subst hs
  exact ⟨rfl, h0, rfl⟩

/-- C4: the capacity-bound invariant `0 ≤ count ≤ capacity` holds in the
initial state and is preserved by every operation, suspended calls
included; in particular an accepted push never drives `count` past the
capacity. -/
theorem count_capacity_invariant (init : Fin BUFFER_SIZE → Int) :
    (0 ≤ (mkBuffer init).count ∧
        (mkBuffer init).count ≤ ((mkBuffer init).capacity : Int)) ∧
      ∀ (s : Buffer) (op : Op),
        0 ≤ s.count ∧ s.count ≤ (s.capacity : Int) →
          0 ≤ (applyOp s op).count ∧
            (applyOp s op).count ≤ ((applyOp s op).capacity : Int) := by
  refine ⟨⟨le_refl 0, by norm_num [mkBuffer, Buffer.capacity, BUFFER_SIZE]⟩, ?_⟩
  rintro s op ⟨h0, h5⟩
  rw [Buffer.capacity, bufferSize_int] at h5 ⊢
  cases op with
  | push v =>
      rcases hp : s.push v with _ | ⟨s', b⟩
      · rw [applyOp_push_none hp]; exact ⟨h0, h5⟩
      · rw [applyOp_push_some hp]
        cases b
        · rw [(push_false_inv hp).2]; exact ⟨h0, h5⟩
        · obtain ⟨hc, hlt, -⟩ := push_true_count hp
          rw [bufferSize_int] at hlt
          omega
  | pop v =>
      rcases hp : s.pop v with _ | ⟨s', v', b⟩
      · rw [applyOp_pop_none hp]; exact ⟨h0, h5⟩
      · rw [applyOp_pop_some hp]
        cases b
        · rw [(pop_false_inv hp).2.2.1]; exact ⟨h0, h5⟩
        · obtain ⟨hc, hne, -⟩ := pop_true_count hp
          omega
  | close => exact ⟨h0, h5⟩
  | size => exact ⟨h0, h5⟩
  | empty => exact ⟨h0, h5⟩
  | full => exact ⟨h0, h5⟩

/-- Witness for C4 at a concrete state and operation. -/
theorem count_capacity_invariant_wit :
    0 ≤ (applyOp witOne (Op.push 3)).count ∧
      (applyOp witOne (Op.push 3)).count ≤ ((applyOp witOne (Op.push 3)).capacity : Int) :=
  (count_capacity_invariant fun _ => 0).2 witOne (Op.push 3) (by decide)

/-- No single operation resets the `closed` flag. -/
theorem applyOp_closed_mono (s : Buffer) (op : Op) (h : s.closed = true) :
    (applyOp s op).closed = true := by
  cases op with
  | push v =>
      rcases hp : s.push v with _ | ⟨s', b⟩
      · rwa [applyOp_push_none hp]
      · rw [applyOp_push_some hp]
        cases b
        · rw [(push_false_inv hp).2]; exact h
        · rw [(push_true_count hp).2.2]; exact h
  | pop v =>
      rcases hp : s.pop v with _ | ⟨s', v', b⟩
      · rwa [applyOp_pop_none hp]
      · rw [applyOp_pop_some hp]
        cases b
        · rw [(pop_false_inv hp).2.2.1]; exact h
        · rw [(pop_true_count hp).2.2]; exact h
  | close => rfl
  | size => exact h
  | empty => exact h
  | full => exact h

/-- No sequence of operations resets the `closed` flag. -/
theorem run_closed_mono (ops : List Op) : ∀ s : Buffer, s.closed = true →
    (run s ops).closed = true := by
  induction ops with
  | nil => exact fun s h => h
  | cons op ops ih =>
      intro s h
      rw [run, List.foldl_cons]
      exact ih (applyOp s op) (applyOp_closed_mono s op h)

/-- C7: in every state reachable from the initial open state, once the
`closed` flag is true it stays true under any further sequence of push,
pop, close, size, empty, and full operations. -/
theorem closed_monotone (init : Fin BUFFER_SIZE → Int) (ops1 ops2 : List Op)
    (h : (run (mkBuffer init) ops1).closed = true) :
    (run (run (mkBuffer init) ops1) ops2).closed = true :=
  run_closed_mono ops2 _ h

/-- Witness for C7: close, then keep operating; the flag stays set. -/
theorem closed_monotone_wit :
    (run (mkBuffer fun _ => 0) [Op.close]).closed = true ∧
      (run (run (mkBuffer fun _ => 0) [Op.close])
          [Op.push 1, Op.pop 0, Op.full]).closed = true :=
  ⟨by decide, closed_monotone (fun _ => 0) [Op.close]
      [Op.push 1, Op.pop 0, Op.full] (by decide)⟩

/-- Along any run, the counter equals its starting value plus accepted
pushes minus value-returning pops. -/
theorem runCounting_balance (ops : List Op) : ∀ s : Buffer,
    (runCounting s ops).1.count =
      s.count + ((runCounting s ops).2.1 : Int) - ((runCounting s ops).2.2 : Int) := by
  induction ops with
  | nil => intro s; simp [runCounting]
  | cons op ops ih =>
      intro s
      cases op with
      | push v =>
          rcases hp : s.push v with _ | ⟨s', b⟩
          · simp only [runCounting, hp]
            have := ih s
            omega
          · cases b
            · simp only [runCounting, hp]
              have hs := (push_false_inv hp).2
              subst hs
              have := ih s'
              omega
            · simp only [runCounting, hp]
              have hc := (push_true_count hp).1
              have := ih s'
              push_cast
              omega
      | pop v =>
          rcases hp : s.pop v with _ | ⟨s', v', b⟩
          · simp only [runCounting, hp]
            have := ih s
            omega
          · cases b
            · simp only [runCounting, hp]
              have hs := (pop_false_inv hp).2.2.1
              subst hs
              have := ih s'
              omega
            · simp only [runCounting, hp]
              have hc := (pop_true_count hp).1
              have := ih s'
              push_cast
              omega
      | close =>
          simp only [runCounting]
          have hcl : (applyOp s Op.close).count = s.count := rfl
          have := ih (applyOp s Op.close)
          omega
      | size =>
          simp only [runCounting]
          exact ih s
      | empty =>
          simp only [runCounting]
          exact ih s
      | full =>
          simp only [runCounting]
          exact ih s

/-- C5: starting from the empty initial queue, along any operation
sequence the number of accepted pushes minus the number of value-returning
pops equals the current `count`; hence whenever the queue is drained
(`count = 0`, as when `pop` has returned end-of-stream) the pop total
equals the push total — no value lost, none duplicated. -/
theorem no_item_loss (init : Fin BUFFER_SIZE → Int) (ops : List Op) :
    (runCounting (mkBuffer init) ops).1.count =
        ((runCounting (mkBuffer init) ops).2.1 : Int) -
          ((runCounting (mkBuffer init) ops).2.2 : Int) ∧
      ((runCounting (mkBuffer init) ops).1.count = 0 →
        (runCounting (mkBuffer init) ops).2.1 = (runCounting (mkBuffer init) ops).2.2) := by
  have h := runCounting_balance ops (mkBuffer init)
  have h0 : (mkBuffer init).count = 0 := rfl
  exact ⟨by omega, fun hz => by omega⟩

/-- Witness for C5: two pushes, close, drain to end-of-stream; pop total
equals push total. -/
theorem no_item_loss_wit :
    (runCounting (mkBuffer fun _ => 0)
        [Op.push 1, Op.push 2, Op.pop 0, Op.close, Op.pop 0, Op.pop 0]).2.1 =
      (runCounting (mkBuffer fun _ => 0)
        [Op.push 1, Op.push 2, Op.pop 0, Op.close, Op.pop 0, Op.pop 0]).2.2 :=
  (no_item_loss (fun _ => 0)
      [Op.push 1, Op.push 2, Op.pop 0, Op.close, Op.pop 0, Op.pop 0]).2 (by decide)

/-- The insert branch of `push` preserves the representation invariant. -/
theorem push_state_inv (s : Buffer) (v : Int) (hInv : s.Inv)
    (hlt : s.count < (BUFFER_SIZE : Int)) :
    ({ s with buffer := Function.update s.buffer s.inIdx v,
              inIdx := finIdx (s.inIdx.val + 1),
              count := s.count + 1 } : Buffer).Inv := by
  obtain ⟨h0, h5, hin⟩ := hInv
  rw [bufferSize_int] at hlt h5
  refine ⟨?_, ?_, ?_⟩
  · show 0 ≤ s.count + 1
    omega
  · show s.count + 1 ≤ (BUFFER_SIZE : Int)
    rw [bufferSize_int]
    omega
  · show finIdx (s.inIdx.val + 1) = finIdx (s.outIdx.val + (s.count + 1).toNat)
    apply Fin.ext
    have hv := congrArg Fin.val hin
    simp only [finIdx, BUFFER_SIZE] at hv ⊢
    omega

/-- The insert branch of `push` appends the value to the abstract
contents. -/
theorem push_state_contents (s : Buffer) (v : Int) (hInv : s.Inv)
    (hlt : s.count < (BUFFER_SIZE : Int)) :
    ({ s with buffer := Function.update s.buffer s.inIdx v,
              inIdx := finIdx (s.inIdx.val + 1),
              count := s.count + 1 } : Buffer).contents = s.contents ++ [v] := by
  obtain ⟨h0, h5, hin⟩ := hInv
  rw [bufferSize_int] at hlt h5
  unfold Buffer.contents
  have hc1 : (s.count + 1).toNat = s.count.toNat + 1 := by omega
  have hcb : s.count.toNat < 5 := by omega
  simp only [hc1]
  rw [List.range_succ, List.map_append, List.map_cons, List.map_nil]
  congr 1
  · apply List.map_congr_left
    intro k hk
    rw [List.mem_range] at hk
    have hne : finIdx (s.outIdx.val + k) ≠ s.inIdx := by
      rw [hin]
      intro heq
      have hval := congrArg Fin.val heq
      simp only [finIdx, BUFFER_SIZE] at hval
      omega
    rw [Function.update_noteq hne]
  · rw [← hin, Function.update_same]

/-- An open, non-full queue accepts a push, extending the contents. -/
theorem push_appends (s : Buffer) (v : Int) (hInv : s.Inv) (hcl : s.closed = false)
    (hlt : s.count < (BUFFER_SIZE : Int)) :
    ∃ s', s.push v = some (s', true) ∧ s'.Inv ∧
      s'.contents = s.contents ++ [v] ∧ s'.closed = false ∧
      s'.count = s.count + 1 := by
  refine ⟨{ s with buffer := Function.update s.buffer s.inIdx v,
                   inIdx := finIdx (s.inIdx.val + 1), count := s.count + 1 },
    ?_, push_state_inv s v hInv hlt, push_state_contents s v hInv hlt, hcl, rfl⟩
  unfold Buffer.push
  rw [if_pos (Or.inl hlt), if_neg (by simp [hcl])]

/-- Pushing a whole list into an open queue with enough room: every push
is accepted and the abstract contents grow by the list, in order. -/
theorem pushList_appends (l : List Int) : ∀ s : Buffer, s.Inv → s.closed = false →
    s.count + l.length ≤ (BUFFER_SIZE : Int) →
    ∃ s', pushList s l = some s' ∧ s'.Inv ∧
      s'.contents = s.contents ++ l ∧ s'.closed = false ∧
      s'.count = s.count + l.length := by
  induction l with
  | nil =>
      intro s hInv hcl hlen
      exact ⟨s, rfl, hInv, by simp, hcl, by simp⟩
  | cons v rest ih =>
      intro s hInv hcl hlen
      simp only [List.length_cons] at hlen
      push_cast at hlen
      have hlt : s.count < (BUFFER_SIZE : Int) := by
        rw [bufferSize_int] at hlen ⊢
        omega
      obtain ⟨s1, hp, hInv1, hc1, hcl1, hn1⟩ := push_appends s v hInv hcl hlt
      obtain ⟨s', hrest, hInv', hc', hcl', hn'⟩ := ih s1 hInv1 hcl1 (by
        rw [bufferSize_int] at hlen ⊢
        omega)
      refine ⟨s', ?_, hInv', ?_, hcl', ?_⟩
      · simp only [pushList, hp]
        exact hrest
      · rw [hc', hc1]
        simp
      · rw [hn', hn1]
        simp only [List.length_cons]
        push_cast
        ring

/-- Popping as many times as the abstract contents holds returns exactly
those values, in order. -/
theorem popList_drains (m : List Int) : ∀ s : Buffer, s.contents = m →
    ∃ s', popList s m.length = some (m, s') := by
  induction m with
  | nil => exact fun s _ => ⟨s, rfl⟩
  | cons v rest ih =>
      intro s h
      have hpos : 0 < s.count := by
        have hlen : s.contents.length = s.count.toNat := by
          simp [Buffer.contents]
        rw [h] at hlen
        simp only [List.length_cons] at hlen
        omega
      obtain ⟨s1, hp, hcons, hcnt, hcl, hbuf, htail⟩ := pop_reads_head s 0 hpos
      rw [h] at hcons
      injection hcons with hv hrest
      obtain ⟨s', hps⟩ := ih s1 hrest.symm
      refine ⟨s', ?_⟩
      show popList s (rest.length + 1) = some (v :: rest, s')
      simp only [popList, hp]
      rw [hps]
      simp [hv]

/-- The initial state satisfies the representation invariant. -/
theorem mkBuffer_inv (init : Fin BUFFER_SIZE → Int) : (mkBuffer init).Inv := by
  refine ⟨le_refl 0, by norm_num [mkBuffer, BUFFER_SIZE], ?_⟩
  apply Fin.ext
  simp [mkBuffer, finIdx]

/-- The initial state holds no values. -/
theorem mkBuffer_contents (init : Fin BUFFER_SIZE → Int) :
    (mkBuffer init).contents = [] := by
  simp [Buffer.contents, mkBuffer]

/-- C1: FIFO order — any list of values that fits the capacity is fully
accepted by consecutive pushes from the initial state, and that many pops
then return exactly that list, in push order. -/
theorem fifo_order (init : Fin BUFFER_SIZE → Int) (l : List Int)
    (hlen : l.length ≤ BUFFER_SIZE) :
    ∃ s s', pushList (mkBuffer init) l = some s ∧
      popList s l.length = some (l, s') := by
  have h5 : l.length ≤ 5 := by simpa [BUFFER_SIZE] using hlen
  obtain ⟨s, hp, hInv, hc, hcl, hn⟩ := pushList_appends l (mkBuffer init)
    (mkBuffer_inv init) rfl (by
      have h0 : (mkBuffer init).count = 0 := rfl
      rw [bufferSize_int]
      omega)
  rw [mkBuffer_contents, List.nil_append] at hc
  obtain ⟨s', hps⟩ := popList_drains l s hc
  exact ⟨s, s', hp, hps⟩

/-- Witness for C1: the concrete scenario — push 1, 2, 3 into the fresh
queue, then three pops return 1, 2, 3 in that order. -/
theorem fifo_order_wit :
    [1, 2, 3].length ≤ BUFFER_SIZE ∧
      ∃ s s', pushList (mkBuffer fun _ => 0) [1, 2, 3] = some s ∧
        popList s [1, 2, 3].length = some ([1, 2, 3], s') :=
  ⟨by decide, fifo_order (fun _ => 0) [1, 2, 3] (by decide)⟩

/-- C8 counterexample: no buffer object has capacity 3, so the claim that
a caller-supplied positive capacity (for instance 3) is fixed at
construction fails — every buffer's capacity is the compile-time
constant 5, and the constructor takes no capacity argument. -/
theorem no_caller_supplied_capacity : ¬ ∃ b : Buffer, b.capacity = 3 := by
  rintro ⟨b, hb⟩
  simp [Buffer.capacity, BUFFER_SIZE] at hb

/-- C8 amended: the capacity is the fixed positive compile-time constant
`BUFFER_SIZE = 5`, the same for every constructed queue and unchanged by
any operation sequence; construction takes no capacity argument, so a
non-positive capacity cannot be supplied at all. -/
theorem capacity_fixed_constant (init : Fin BUFFER_SIZE → Int) (ops : List Op) :
    (mkBuffer init).capacity = BUFFER_SIZE ∧ 0 < (mkBuffer init).capacity ∧
      (run (mkBuffer init) ops).capacity = (mkBuffer init).capacity :=
  ⟨rfl, by norm_num [Buffer.capacity, BUFFER_SIZE], rfl⟩

end ThreadSafeDS
